import Mathlib

set_option maxHeartbeats 1000000

/-!
Verification development for the `atomics` repository's queue cores.

Embedded components:
* `src/lfqueue/fifo.rs` — the bounded SPSC ring buffer (FIFO5, the zero-copy
  variant with `Pusher`/`Popper` scoped accessors and local cursor caches).
* `src/lfqueue/lockfreequeue.rs` — the unbounded Michael–Scott style queue.
* `src/one_shot_ch.rs` — the one-shot channel.

The embedding is a sequential (single-threaded, uninterleaved) semantics: each
Rust operation, together with the accessor release that publishes its cursor
update, is one atomic step on an explicit state record.  Atomic loads read the
current field value, atomic stores write it, and a compare-exchange whose
expected value equals the value just loaded in the same uninterleaved step
succeeds.  The `u64` cursors are embedded as `Nat`: they start at 0 and grow by
one per operation, and every subtraction the code performs is of a smaller
counter from a larger one (established by the invariants below), so the `u64`
wrapping arithmetic agrees with `Nat` arithmetic on all states the theorems
quantify over.
-/

/-! ## List index helpers -/

theorem listGetD_set_self {α : Type} (l : List α) (i : Nat) (a d : α) (h : i < l.length) :
    (l.set i a).getD i d = a := by
  simp [List.getD_eq_getElem?_getD, List.getElem?_set_eq_of_lt a h]

theorem listGetD_set_other {α : Type} (l : List α) (i j : Nat) (a d : α) (h : i ≠ j) :
    (l.set i a).getD j d = l.getD j d := by
  simp [List.getD_eq_getElem?_getD, List.getElem?_set_ne h]

theorem listGetD_append_lt {α : Type} (l l' : List α) (i : Nat) (d : α) (h : i < l.length) :
    (l ++ l').getD i d = l.getD i d := by
  simp [List.getD_eq_getElem?_getD, List.getElem?_append_left h]

theorem listGetD_append_len {α : Type} (l : List α) (a d : α) :
    (l ++ [a]).getD l.length d = a := by
  simp [List.getD_eq_getElem?_getD]

theorem addMod_ne {t i j c : Nat} (hi : i < c) (hj : j < c) (hne : i ≠ j) :
    (t + i) % c ≠ (t + j) % c := by
  intro h
  have h2 : i % c = j % c := Nat.ModEq.add_left_cancel' t h
  rw [Nat.mod_eq_of_lt hi, Nat.mod_eq_of_lt hj] at h2
  exact hne h2

/-! ## Bounded SPSC ring buffer (`src/lfqueue/fifo.rs`) -/

/--
Combined state of `Shared<T>` together with the `Producer` and `Consumer`
local fields.  `buffer` embeds `Vec<UnsafeCell<MaybeUninit<T>>>` as a list of
`Option α` (`none` = uninitialized or already consumed); `head`/`tail` are the
shared atomics, `phead`/`pcacheTail` the producer's `head`/`cache_tail`
locals, `ctail`/`ccacheHead` the consumer's `tail`/`cache_head` locals.
-/
structure Fifo (α : Type) where
  capacity : Nat
  buffer : List (Option α)
  head : Nat
  tail : Nat
  phead : Nat
  pcacheTail : Nat
  ctail : Nat
  ccacheHead : Nat
deriving Repr, DecidableEq

/-- Constructor `new(capacity)`: all cursors 0, every slot uninitialized.
The source asserts `capacity > 0`; theorems carry that hypothesis. -/
def Fifo.new (α : Type) (capacity : Nat) : Fifo α :=
  { capacity := capacity
    buffer := List.replicate capacity none
    head := 0
    tail := 0
    phead := 0
    pcacheTail := 0
    ctail := 0
    ccacheHead := 0 }

/--
Body of `Producer::push` up to (and excluding) the accessor release: the full
check against the cached tail, the cache refresh via the acquire load of the
shared tail, the re-check, and the slot-index computation.  Returns the state
(with a possibly refreshed `pcacheTail`) and `some slot` on success, `none`
for `Err(FullError)`.
-/
def Producer.push {α : Type} (s : Fifo α) : Fifo α × Option Nat :=
  if s.phead - s.pcacheTail = s.capacity then
    let s' : Fifo α := { s with pcacheTail := s.tail }
    if s'.phead - s'.pcacheTail = s'.capacity then (s', none)
    else (s', some (s'.phead % s'.capacity))
  else (s, some (s.phead % s.capacity))

/-- `Pusher::write`: store the value into the reserved slot. -/
def Pusher.write {α : Type} (s : Fifo α) (slot : Nat) (v : α) : Fifo α :=
  { s with buffer := s.buffer.set slot (some v) }

/-- Drop glue of `Pusher`: increment the producer's local head and
release-store it to the shared head. -/
def Pusher.drop {α : Type} (s : Fifo α) : Fifo α :=
  { s with phead := s.phead + 1, head := s.phead + 1 }

/--
Body of `Consumer::pop` up to (and excluding) the accessor release: the empty
check against the cached head, the cache refresh via the acquire load of the
shared head, the re-check, and the slot-index computation.
-/
def Consumer.pop {α : Type} (s : Fifo α) : Fifo α × Option Nat :=
  if s.ctail = s.ccacheHead then
    let s' : Fifo α := { s with ccacheHead := s.head }
    if s'.ctail = s'.ccacheHead then (s', none)
    else (s', some (s'.ctail % s'.capacity))
  else (s, some (s.ctail % s.capacity))

/-- Drop glue of `Popper`: run the element's destructor (`assume_init_drop`,
making the slot uninitialized again), increment the consumer's local tail and
release-store it to the shared tail. -/
def Popper.drop {α : Type} (s : Fifo α) (slot : Nat) : Fifo α :=
  { s with buffer := s.buffer.set slot none, ctail := s.ctail + 1, tail := s.ctail + 1 }

/-- Result of a pop step: `empty`, or the slot content observed through the
`Popper`'s `Deref` (`none` models reading an uninitialized slot). -/
inductive PopResult (α : Type) where
  | empty
  | value (v : Option α)
deriving Repr, DecidableEq

/-- A complete push of one value: reserve a slot, write the value through the
`Pusher`, release the `Pusher` (publishing the head).  On a full queue the
value is handed back to the caller as `Except.error v`. -/
def pushValue {α : Type} (s : Fifo α) (v : α) : Fifo α × Except α Unit :=
  match Producer.push s with
  | (s', none) => (s', Except.error v)
  | (s', some slot) => (Pusher.drop (Pusher.write s' slot v), Except.ok ())

/-- Reserving a slot and releasing the `Pusher` WITHOUT writing: the drop glue
still increments and publishes the head. -/
def pushRelease {α : Type} (s : Fifo α) : Fifo α × Except Unit Unit :=
  match Producer.push s with
  | (s', none) => (s', Except.error ())
  | (s', some _) => (Pusher.drop s', Except.ok ())

/-- A complete pop of one value: reserve, observe the slot through `Deref`,
release the `Popper` (destructor + tail publish). -/
def popValue {α : Type} (s : Fifo α) : Fifo α × PopResult α :=
  match Consumer.pop s with
  | (s', none) => (s', PopResult.empty)
  | (s', some slot) => (Popper.drop s' slot, PopResult.value (s'.buffer.getD slot none))

/-- Fuel-indexed body of `Consumer::drop`: `while self.pop().is_some() {}`.
Returns the final state and the list of slot contents destroyed by the
successive `Popper` releases. -/
def Consumer.drain {α : Type} : Nat → Fifo α → Fifo α × List (Option α)
  | 0, s => (s, [])
  | fuel + 1, s =>
    match popValue s with
    | (s', PopResult.empty) => (s', [])
    | (s', PopResult.value v) =>
      let r := Consumer.drain fuel s'
      (r.1, v :: r.2)

/-- `Consumer::drop` with its natural fuel (the loop pops one element per
iteration and `head - tail` elements are available). -/
def Consumer.drop {α : Type} (s : Fifo α) : Fifo α × List (Option α) :=
  Consumer.drain (s.head - s.tail) s

/-- Cursor invariant of the ring buffer (no statement about slot contents). -/
structure FifoInvC {α : Type} (s : Fifo α) : Prop where
  cap_pos : 0 < s.capacity
  buflen : s.buffer.length = s.capacity
  hsync : s.head = s.phead
  tsync : s.tail = s.ctail
  pct : s.pcacheTail ≤ s.tail
  pbound : s.head ≤ s.pcacheTail + s.capacity
  cl : s.ctail ≤ s.ccacheHead
  cu : s.ccacheHead ≤ s.head
  ht : s.tail ≤ s.head
  bound : s.head ≤ s.tail + s.capacity

/-- Full invariant: cursors plus contents.  `L` is the abstract queue: the
values stored in slots `tail, tail+1, …, head-1` (mod capacity), oldest
first. -/
structure FifoInv {α : Type} (s : Fifo α) (L : List α) : Prop where
  base : FifoInvC s
  len : L.length = s.head - s.tail
  slots : ∀ i, i < L.length → s.buffer.getD ((s.tail + i) % s.capacity) none = L[i]?

theorem inv_new {α : Type} (c : Nat) (hc : 0 < c) : FifoInv (Fifo.new α c) [] := by
  refine ⟨⟨hc, ?_, rfl, rfl, ?_, ?_, ?_, ?_, ?_, ?_⟩, rfl, ?_⟩ <;>
    simp [Fifo.new]

theorem inv_refreshP {α : Type} {s : Fifo α} {L : List α} (h : FifoInv s L) :
    FifoInv { s with pcacheTail := s.tail } L := by
  obtain ⟨⟨c1, c2, c3, c4, c5, c6, c7, c8, c9, c10⟩, len, slots⟩ := h
  exact ⟨⟨c1, c2, c3, c4, Nat.le_refl _, (by omega : s.head ≤ s.tail + s.capacity),
    c7, c8, c9, c10⟩, len, slots⟩

theorem inv_refreshC {α : Type} {s : Fifo α} {L : List α} (h : FifoInv s L) :
    FifoInv { s with ccacheHead := s.head } L := by
  obtain ⟨⟨c1, c2, c3, c4, c5, c6, c7, c8, c9, c10⟩, len, slots⟩ := h
  exact ⟨⟨c1, c2, c3, c4, c5, c6, (by omega : s.ctail ≤ s.head), Nat.le_refl _,
    c9, c10⟩, len, slots⟩


theorem pushCommit_inv {α : Type} {s : Fifo α} {L : List α} (hInv : FifoInv s L)
    (hlt : L.length < s.capacity) (hroom : s.phead - s.pcacheTail < s.capacity) (v : α) :
    FifoInv (Pusher.drop (Pusher.write s (s.phead % s.capacity) v)) (L ++ [v]) := by
  obtain ⟨⟨c1, c2, c3, c4, c5, c6, c7, c8, c9, c10⟩, len, slots⟩ := hInv
  have hph : s.phead = s.tail + L.length := by omega
  refine ⟨⟨c1, ?_, rfl, c4, c5, ?_, c7, ?_, ?_, ?_⟩, ?_, ?_⟩
  · simpa [Pusher.drop, Pusher.write] using c2
  · simp only [Pusher.drop, Pusher.write]; omega
  · simp only [Pusher.drop, Pusher.write]; omega
  · simp only [Pusher.drop, Pusher.write]; omega
  · simp only [Pusher.drop, Pusher.write]; omega
  · simp only [Pusher.drop, Pusher.write, List.length_append, List.length_cons,
      List.length_nil]
    omega
  · intro i hi
    simp only [List.length_append, List.length_cons, List.length_nil] at hi
    show (s.buffer.set (s.phead % s.capacity) (some v)).getD ((s.tail + i) % s.capacity) none
      = (L ++ [v])[i]?
    by_cases hiL : i < L.length
    · have hne : s.phead % s.capacity ≠ (s.tail + i) % s.capacity := by
        rw [hph]
        exact Ne.symm (addMod_ne (Nat.lt_trans hiL hlt) hlt (Nat.ne_of_lt hiL))
      rw [listGetD_set_other _ _ _ _ _ hne, slots i hiL,
        List.getElem?_append_left hiL]
    · have hiEq : i = L.length := by omega
      subst hiEq
      have hlen : s.phead % s.capacity < s.buffer.length := by
        rw [c2]; exact Nat.mod_lt _ c1
      have hidx : (s.tail + L.length) % s.capacity = s.phead % s.capacity := by rw [hph]
      rw [hidx, listGetD_set_self _ _ _ _ hlen]
      simp

theorem pushValue_full {α : Type} {s : Fifo α} {L : List α} (hInv : FifoInv s L)
    (hfull : L.length = s.capacity) (v : α) :
    pushValue s v = ({ s with pcacheTail := s.tail }, Except.error v) ∧
    FifoInv { s with pcacheTail := s.tail } L := by
  obtain ⟨⟨c1, c2, c3, c4, c5, c6, c7, c8, c9, c10⟩, len, slots⟩ := hInv
  have h1 : s.phead - s.pcacheTail = s.capacity := by omega
  have h2 : s.phead - s.tail = s.capacity := by omega
  have hres : Producer.push s = ({ s with pcacheTail := s.tail }, none) := by
    simp only [Producer.push]
    rw [if_pos h1, if_pos h2]
  constructor
  · unfold pushValue
    rw [hres]
  · exact ⟨⟨c1, c2, c3, c4, Nat.le_refl _, (by omega : s.head ≤ s.tail + s.capacity),
      c7, c8, c9, c10⟩, len, slots⟩

theorem pushValue_ok {α : Type} {s : Fifo α} {L : List α} (hInv : FifoInv s L)
    (hlt : L.length < s.capacity) (v : α) :
    ∃ s', pushValue s v = (s', Except.ok ()) ∧ FifoInv s' (L ++ [v]) ∧
      s'.head = s.head + 1 ∧ s'.tail = s.tail ∧ s'.capacity = s.capacity := by
  obtain ⟨⟨c1, c2, c3, c4, c5, c6, c7, c8, c9, c10⟩, len, slots⟩ := hInv
  have hInv2 : FifoInv s L := ⟨⟨c1, c2, c3, c4, c5, c6, c7, c8, c9, c10⟩, len, slots⟩
  by_cases hc : s.phead - s.pcacheTail = s.capacity
  · -- cache miss: refresh the cached tail, then there is room
    have h2 : ¬ s.phead - s.tail = s.capacity := by omega
    have hres : Producer.push s =
        ({ s with pcacheTail := s.tail }, some (s.phead % s.capacity)) := by
      simp only [Producer.push]
      rw [if_pos hc, if_neg h2]
    refine ⟨Pusher.drop (Pusher.write { s with pcacheTail := s.tail }
      (s.phead % s.capacity) v), ?_, ?_, ?_, ?_, ?_⟩
    · unfold pushValue
      rw [hres]
    · exact pushCommit_inv (inv_refreshP hInv2) hlt
        (by omega : s.phead - s.tail < s.capacity) v
    · simp [Pusher.drop, Pusher.write, c3]
    · simp [Pusher.drop, Pusher.write]
    · simp [Pusher.drop, Pusher.write]
  · -- the cached tail already shows room
    have hres : Producer.push s = (s, some (s.phead % s.capacity)) := by
      simp only [Producer.push]
      rw [if_neg hc]
    refine ⟨Pusher.drop (Pusher.write s (s.phead % s.capacity) v), ?_, ?_, ?_, ?_, ?_⟩
    · unfold pushValue
      rw [hres]
    · exact pushCommit_inv hInv2 hlt (by omega) v
    · simp [Pusher.drop, Pusher.write, c3]
    · simp [Pusher.drop, Pusher.write]
    · simp [Pusher.drop, Pusher.write]

theorem popCommit_inv {α : Type} {s : Fifo α} {x : α} {L' : List α}
    (hInv : FifoInv s (x :: L')) (hcadv : s.ctail < s.ccacheHead) :
    FifoInv (Popper.drop s (s.ctail % s.capacity)) L' ∧
    s.buffer.getD (s.ctail % s.capacity) none = some x := by
  obtain ⟨⟨c1, c2, c3, c4, c5, c6, c7, c8, c9, c10⟩, len, slots⟩ := hInv
  have hlen : (x :: L').length = s.head - s.tail := len
  have hcap : (x :: L').length ≤ s.capacity := by omega
  have hread : s.buffer.getD (s.ctail % s.capacity) none = some x := by
    have h0 := slots 0 (by simp)
    rw [Nat.add_zero] at h0
    rw [← c4]
    simpa using h0
  refine ⟨⟨⟨c1, ?_, c3, rfl, ?_, ?_, ?_, ?_, ?_, ?_⟩, ?_, ?_⟩, hread⟩
  · simpa [Popper.drop] using c2
  · exact (by omega : s.pcacheTail ≤ s.ctail + 1)
  · exact (by omega : s.head ≤ s.pcacheTail + s.capacity)
  · exact (by omega : s.ctail + 1 ≤ s.ccacheHead)
  · exact c8
  · exact (by omega : s.ctail + 1 ≤ s.head)
  · exact (by omega : s.head ≤ s.ctail + 1 + s.capacity)
  · show L'.length = s.head - (s.ctail + 1)
    simp only [List.length_cons] at hlen
    omega
  · intro i hi
    show (s.buffer.set (s.ctail % s.capacity) none).getD ((s.ctail + 1 + i) % s.capacity) none
      = L'[i]?
    simp only [List.length_cons] at hlen
    have hi1 : 1 + i < (x :: L').length := by simp; omega
    have hne : s.ctail % s.capacity ≠ (s.ctail + 1 + i) % s.capacity := by
      have h1 : s.ctail % s.capacity = (s.ctail + 0) % s.capacity := by rw [Nat.add_zero]
      have h2 : s.ctail + 1 + i = s.ctail + (1 + i) := by omega
      rw [h1, h2]
      exact addMod_ne c1 (by omega) (by omega)
    rw [listGetD_set_other _ _ _ _ _ hne]
    have hs := slots (1 + i) (by simpa using hi1)
    rw [c4] at hs
    have h2 : s.ctail + 1 + i = s.ctail + (1 + i) := by omega
    rw [h2, hs, Nat.add_comm 1 i]
    simp

theorem popValue_empty {α : Type} {s : Fifo α} (hInv : FifoInv s []) :
    popValue s = ({ s with ccacheHead := s.head }, PopResult.empty) ∧
    FifoInv { s with ccacheHead := s.head } [] := by
  obtain ⟨⟨c1, c2, c3, c4, c5, c6, c7, c8, c9, c10⟩, len, slots⟩ := hInv
  have hht : s.head = s.tail := by simp at len; omega
  have h1 : s.ctail = s.ccacheHead := by omega
  have h2 : s.ctail = s.head := by omega
  have hres : Consumer.pop s = ({ s with ccacheHead := s.head }, none) := by
    simp only [Consumer.pop]
    rw [if_pos h1, if_pos h2]
  constructor
  · unfold popValue
    rw [hres]
  · exact ⟨⟨c1, c2, c3, c4, c5, c6, (by omega : s.ctail ≤ s.head), Nat.le_refl _,
      c9, c10⟩, len, slots⟩

theorem popValue_cons {α : Type} {s : Fifo α} {x : α} {L' : List α}
    (hInv : FifoInv s (x :: L')) :
    ∃ s', popValue s = (s', PopResult.value (some x)) ∧ FifoInv s' L' ∧
      s'.head = s.head ∧ s'.tail = s.tail + 1 ∧ s'.capacity = s.capacity ∧
      s'.buffer = s.buffer.set (s.tail % s.capacity) none := by
  obtain ⟨⟨c1, c2, c3, c4, c5, c6, c7, c8, c9, c10⟩, len, slots⟩ := hInv
  have hInv2 : FifoInv s (x :: L') := ⟨⟨c1, c2, c3, c4, c5, c6, c7, c8, c9, c10⟩, len, slots⟩
  have hlen : (x :: L').length = s.head - s.tail := len
  have hpos : s.tail < s.head := by simp at hlen; omega
  by_cases hcc : s.ctail = s.ccacheHead
  · -- cache shows empty: refresh the cached head, then there is an element
    have h2 : ¬ s.ctail = s.head := by omega
    have hres : Consumer.pop s =
        ({ s with ccacheHead := s.head }, some (s.ctail % s.capacity)) := by
      simp only [Consumer.pop]
      rw [if_pos hcc, if_neg h2]
    have hcommit := popCommit_inv (inv_refreshC hInv2)
      (by simpa using (by omega : s.ctail < s.head))
    refine ⟨Popper.drop { s with ccacheHead := s.head } (s.ctail % s.capacity),
      ?_, ?_, ?_, ?_, ?_, ?_⟩
    · unfold popValue
      rw [hres]
      have hread : ({ s with ccacheHead := s.head } : Fifo α).buffer.getD
          (s.ctail % s.capacity) none = some x := hcommit.2
      simp only [hread]
    · exact hcommit.1
    · simp [Popper.drop]
    · simp [Popper.drop, c4]
    · simp [Popper.drop]
    · simp [Popper.drop, c4]
  · have hres : Consumer.pop s = (s, some (s.ctail % s.capacity)) := by
      simp only [Consumer.pop]
      rw [if_neg hcc]
    have hcommit := popCommit_inv hInv2 (by omega)
    refine ⟨Popper.drop s (s.ctail % s.capacity), ?_, ?_, ?_, ?_, ?_, ?_⟩
    · unfold popValue
      rw [hres]
      simp only [hcommit.2]
    · exact hcommit.1
    · simp [Popper.drop]
    · simp [Popper.drop, c4]
    · simp [Popper.drop]
    · simp [Popper.drop, c4]

/--
Single-threaded interleavings of the two handles: `Trace ps qs s` holds when
some alternation of producer steps (each pushing the next value, retrying on
full) and consumer steps (each popping, possibly finding the queue empty)
starting from `new` has pushed exactly the values `ps` (in order), has popped
exactly the values `qs` (in order), and has left the shared state at `s`.
-/
inductive Trace {α : Type} : List α → List α → Fifo α → Prop where
  | init (c : Nat) (hc : 0 < c) : Trace [] [] (Fifo.new α c)
  | push {ps qs : List α} {s s' : Fifo α} (v : α) (h : Trace ps qs s)
      (he : pushValue s v = (s', Except.ok ())) : Trace (ps ++ [v]) qs s'
  | pushFull {ps qs : List α} {s s' : Fifo α} (v : α) (h : Trace ps qs s)
      (he : pushValue s v = (s', Except.error v)) : Trace ps qs s'
  | pop {ps qs : List α} {s s' : Fifo α} {x : α} (h : Trace ps qs s)
      (he : popValue s = (s', PopResult.value (some x))) : Trace ps (qs ++ [x]) s'
  | popMiss {ps qs : List α} {s s' : Fifo α} (h : Trace ps qs s)
      (he : popValue s = (s', PopResult.empty)) : Trace ps qs s'
  | popUninit {ps qs : List α} {s s' : Fifo α} (h : Trace ps qs s)
      (he : popValue s = (s', PopResult.value none)) : Trace ps qs s'

/-- Central refinement invariant: along every trace the popped values followed
by the buffer contents are exactly the pushed values. -/
theorem trace_inv {α : Type} {ps qs : List α} {s : Fifo α} (h : Trace ps qs s) :
    ∃ L, FifoInv s L ∧ qs ++ L = ps := by
  induction h with
  | init c hc => exact ⟨[], inv_new c hc, rfl⟩
  | push v h he ih =>
    obtain ⟨L, hInv, happ⟩ := ih
    rename_i ps qs s s' 
    by_cases hfull : L.length = s.capacity
    · have := (pushValue_full hInv hfull v).1
      rw [this] at he
      exact absurd (congrArg Prod.snd he) (by simp)
    · have hlt : L.length < s.capacity := by
        have := hInv.base.bound
        have := hInv.base.ht
        have := hInv.len
        omega
      obtain ⟨s'', he2, hInv2, _, _, _⟩ := pushValue_ok hInv hlt v
      rw [he2] at he
      have hss : s'' = s' := congrArg Prod.fst he
      exact ⟨L ++ [v], hss ▸ hInv2, by rw [← happ, List.append_assoc]⟩
  | pushFull v h he ih =>
    obtain ⟨L, hInv, happ⟩ := ih
    rename_i ps qs s s' 
    by_cases hfull : L.length = s.capacity
    · have hf := pushValue_full hInv hfull v
      rw [hf.1] at he
      have : s' = { s with pcacheTail := s.tail } := (congrArg Prod.fst he).symm
      exact ⟨L, this ▸ hf.2, happ⟩
    · have hlt : L.length < s.capacity := by
        have := hInv.base.bound
        have := hInv.base.ht
        have := hInv.len
        omega
      obtain ⟨s'', he2, hInv2, _, _, _⟩ := pushValue_ok hInv hlt v
      rw [he2] at he
      exact absurd (congrArg Prod.snd he) (by simp)
  | pop h he ih =>
    obtain ⟨L, hInv, happ⟩ := ih
    rename_i ps qs s s' x
    match L, hInv with
    | [], hInv =>
      have := (popValue_empty hInv).1
      rw [this] at he
      exact absurd (congrArg Prod.snd he) (by simp)
    | y :: L', hInv =>
      obtain ⟨s'', he2, hInv2, _, _, _, _⟩ := popValue_cons hInv
      rw [he2] at he
      have hps : s'' = s' := congrArg Prod.fst he
      have hxy : (PopResult.value (some y) : PopResult α) = PopResult.value (some x) :=
        congrArg Prod.snd he
      have hxy2 : y = x := by simpa using hxy
      subst hxy2
      exact ⟨L', hps ▸ hInv2, by rw [← happ]; simp⟩
  | popMiss h he ih =>
    obtain ⟨L, hInv, happ⟩ := ih
    rename_i ps qs s s' 
    match L, hInv with
    | [], hInv =>
      have hf := popValue_empty hInv
      rw [hf.1] at he
      have : s' = { s with ccacheHead := s.head } := (congrArg Prod.fst he).symm
      exact ⟨[], this ▸ hf.2, happ⟩
    | y :: L', hInv =>
      obtain ⟨s'', he2, hInv2, _, _, _, _⟩ := popValue_cons hInv
      rw [he2] at he
      exact absurd (congrArg Prod.snd he) (by simp)
  | popUninit h he ih =>
    obtain ⟨L, hInv, happ⟩ := ih
    rename_i ps qs s s' 
    match L, hInv with
    | [], hInv =>
      have := (popValue_empty hInv).1
      rw [this] at he
      exact absurd (congrArg Prod.snd he) (by simp)
    | y :: L', hInv =>
      obtain ⟨s'', he2, hInv2, _, _, _, _⟩ := popValue_cons hInv
      rw [he2] at he
      exact absurd (congrArg Prod.snd he) (by simp)

/-- C1: in any single-threaded interleaving on a bounded SPSC ring buffer in
which the producer pushes the sequence `0..N` (retrying on full) and the
consumer pops until `N+1` values are collected, the collected sequence equals
`0..N` exactly — FIFO order, no value lost, no value duplicated. -/
theorem spsc_stress_collects_exactly (N : Nat) {qs : List Nat} {s : Fifo Nat}
    (h : Trace (List.range (N + 1)) qs s) (hlen : qs.length = N + 1) :
    qs = List.range (N + 1) := by
  obtain ⟨L, hInv, happ⟩ := trace_inv h
  have hlen2 : qs.length + L.length = (List.range (N + 1)).length := by
    rw [← happ]
    simp
  have hL : L = [] := List.eq_nil_of_length_eq_zero (by simp at hlen2; omega)
  subst hL
  simpa using happ

theorem spsc_stress_collects_exactly_witness :
    ([0] : List Nat).length = 0 + 1 ∧ ([0] : List Nat) = List.range (0 + 1) := by
  have t0 : Trace ([] : List Nat) [] (Fifo.new Nat 1) := Trace.init 1 (by decide)
  have t1 : Trace ([] ++ [0]) [] (pushValue (Fifo.new Nat 1) 0).1 :=
    Trace.push 0 t0 rfl
  have t2 : Trace ([] ++ [0]) ([] ++ [0]) (popValue (pushValue (Fifo.new Nat 1) 0).1).1 :=
    Trace.pop t1 rfl
  have t3 : Trace (List.range (0 + 1)) [0] (popValue (pushValue (Fifo.new Nat 1) 0).1).1 := by
    simpa using t2
  exact ⟨rfl, spsc_stress_collects_exactly 0 t3 rfl⟩

/-- C5: on a full bounded queue (`head = tail + capacity` in a reachable
state), a push hands the value back unchanged as the `FullError` outcome and
leaves every slot, the head cursor and the tail cursor exactly as they were. -/
theorem push_full_returns_value_unchanged {α : Type} {ps qs : List α} {s : Fifo α}
    (h : Trace ps qs s) (hfull : s.head = s.tail + s.capacity) (v : α) :
    (pushValue s v).2 = Except.error v ∧
    (pushValue s v).1.buffer = s.buffer ∧
    (pushValue s v).1.head = s.head ∧
    (pushValue s v).1.tail = s.tail := by
  obtain ⟨L, hInv, -⟩ := trace_inv h
  have hLfull : L.length = s.capacity := by
    have h1 := hInv.len
    have h2 := hInv.base.ht
    omega
  rw [(pushValue_full hInv hLfull v).1]
  exact ⟨rfl, rfl, rfl, rfl⟩

theorem push_full_returns_value_unchanged_witness :
    (pushValue (pushValue (Fifo.new Nat 1) 5).1 7).2 = Except.error 7 ∧
    (pushValue (pushValue (Fifo.new Nat 1) 5).1 7).1.buffer
      = (pushValue (Fifo.new Nat 1) 5).1.buffer ∧
    (pushValue (pushValue (Fifo.new Nat 1) 5).1 7).1.head
      = (pushValue (Fifo.new Nat 1) 5).1.head ∧
    (pushValue (pushValue (Fifo.new Nat 1) 5).1 7).1.tail
      = (pushValue (Fifo.new Nat 1) 5).1.tail := by
  have t0 : Trace ([] : List Nat) [] (Fifo.new Nat 1) := Trace.init 1 (by decide)
  have t1 : Trace ([] ++ [5]) [] (pushValue (Fifo.new Nat 1) 5).1 := Trace.push 5 t0 rfl
  exact push_full_returns_value_unchanged t1 (by decide) 7

/-- C6: on an empty bounded queue (`head = tail` in a reachable state), a pop
returns the ordinary `empty` outcome and leaves every slot, the head cursor
and the tail cursor exactly as they were. -/
theorem pop_empty_returns_empty_unchanged {α : Type} {ps qs : List α} {s : Fifo α}
    (h : Trace ps qs s) (he : s.head = s.tail) :
    (popValue s).2 = PopResult.empty ∧
    (popValue s).1.buffer = s.buffer ∧
    (popValue s).1.head = s.head ∧
    (popValue s).1.tail = s.tail := by
  obtain ⟨L, hInv, -⟩ := trace_inv h
  have hL : L = [] := List.eq_nil_of_length_eq_zero (by have := hInv.len; omega)
  subst hL
  rw [(popValue_empty hInv).1]
  exact ⟨rfl, rfl, rfl, rfl⟩

theorem pop_empty_returns_empty_unchanged_witness :
    (popValue (Fifo.new Nat 1)).2 = PopResult.empty ∧
    (popValue (Fifo.new Nat 1)).1.buffer = (Fifo.new Nat 1).buffer ∧
    (popValue (Fifo.new Nat 1)).1.head = (Fifo.new Nat 1).head ∧
    (popValue (Fifo.new Nat 1)).1.tail = (Fifo.new Nat 1).tail :=
  pop_empty_returns_empty_unchanged (Trace.init 1 (by decide)) rfl

/-- Pushing a list of values one after the other; `none` if any push reports
the queue full. -/
def pushAll {α : Type} : Fifo α → List α → Option (Fifo α)
  | s, [] => some s
  | s, v :: vs =>
    match pushValue s v with
    | (s', Except.ok _) => pushAll s' vs
    | (_, Except.error _) => none

theorem pushAll_ok {α : Type} : ∀ (xs : List α) {s : Fifo α} {L : List α},
    FifoInv s L → L.length + xs.length ≤ s.capacity →
    ∃ s', pushAll s xs = some s' ∧ FifoInv s' (L ++ xs)
  | [], s, L, hInv, _ => ⟨s, rfl, by simpa⟩
  | v :: vs, s, L, hInv, hle => by
    obtain ⟨s1, he, hInv1, hh, ht, hcap⟩ := pushValue_ok hInv (by simp at hle; omega) v
    have hle1 : (L ++ [v]).length + vs.length ≤ s1.capacity := by
      rw [hcap]
      simp at hle ⊢
      omega
    obtain ⟨s', he2, hInv2⟩ := pushAll_ok vs hInv1 hle1
    refine ⟨s', ?_, by simpa using hInv2⟩
    show pushAll s (v :: vs) = some s'
    unfold pushAll
    rw [he]
    exact he2

theorem drain_spec {α : Type} : ∀ (L : List α) {s : Fifo α} (fuel : Nat),
    FifoInv s L → L.length ≤ fuel →
    (Consumer.drain fuel s).2 = L.map some
  | [], s, fuel, hInv, _ => by
    cases fuel with
    | zero => rfl
    | succ k =>
      show (Consumer.drain (k + 1) s).2 = ([] : List α).map some
      unfold Consumer.drain
      rw [(popValue_empty hInv).1]
      rfl
  | x :: L', s, fuel, hInv, hle => by
    cases fuel with
    | zero => simp at hle
    | succ k =>
      obtain ⟨s1, he, hInv1, _, _, _, _⟩ := popValue_cons hInv
      show (Consumer.drain (k + 1) s).2 = (x :: L').map some
      unfold Consumer.drain
      rw [he]
      simp [drain_spec L' k hInv1 (by simp at hle; omega)]

/-- C7: after `k ≤ capacity` pushes and no pops, dropping the consumer handle
(which drains the queue, releasing one `Popper` per stored element) runs each
stored element's destructor exactly once: the list of destroyed slot contents
is exactly the pushed list. -/
theorem consumer_drop_destroys_each_once {α : Type} (c : Nat) (xs : List α)
    (hc : 0 < c) (hk : xs.length ≤ c) :
    ∃ s, pushAll (Fifo.new α c) xs = some s ∧ (Consumer.drop s).2 = xs.map some := by
  obtain ⟨s, he, hInv⟩ := pushAll_ok xs (inv_new c hc) (by simpa using hk)
  have hInv2 : FifoInv s xs := by simpa using hInv
  refine ⟨s, he, ?_⟩
  show (Consumer.drain (s.head - s.tail) s).2 = xs.map some
  have hfl : xs.length ≤ s.head - s.tail := by
    have := hInv2.len
    omega
  exact drain_spec _ _ hInv2 hfl

theorem consumer_drop_destroys_each_once_witness :
    0 < 2 ∧ ([4, 9] : List Nat).length ≤ 2 ∧
    ∃ s, pushAll (Fifo.new Nat 2) [4, 9] = some s ∧
      (Consumer.drop s).2 = ([4, 9] : List Nat).map some :=
  ⟨by decide, by decide, consumer_drop_destroys_each_once 2 [4, 9] (by decide) (by decide)⟩

theorem invC_refreshP {α : Type} {s : Fifo α} (h : FifoInvC s) :
    FifoInvC { s with pcacheTail := s.tail } := by
  obtain ⟨c1, c2, c3, c4, c5, c6, c7, c8, c9, c10⟩ := h
  exact ⟨c1, c2, c3, c4, Nat.le_refl _, (by omega : s.head ≤ s.tail + s.capacity),
    c7, c8, c9, c10⟩

theorem invC_refreshC {α : Type} {s : Fifo α} (h : FifoInvC s) :
    FifoInvC { s with ccacheHead := s.head } := by
  obtain ⟨c1, c2, c3, c4, c5, c6, c7, c8, c9, c10⟩ := h
  exact ⟨c1, c2, c3, c4, c5, c6, (by omega : s.ctail ≤ s.head), Nat.le_refl _, c9, c10⟩

theorem invC_commitPush {α : Type} {s : Fifo α} (h : FifoInvC s)
    (hroom : s.phead - s.pcacheTail < s.capacity) (slot : Nat) (v : α) :
    FifoInvC (Pusher.drop (Pusher.write s slot v)) := by
  obtain ⟨c1, c2, c3, c4, c5, c6, c7, c8, c9, c10⟩ := h
  refine ⟨c1, ?_, rfl, c4, c5, ?_, c7, ?_, ?_, ?_⟩
  · simpa [Pusher.drop, Pusher.write] using c2
  · exact (by omega : s.phead + 1 ≤ s.pcacheTail + s.capacity)
  · exact (by omega : s.ccacheHead ≤ s.phead + 1)
  · exact (by omega : s.tail ≤ s.phead + 1)
  · exact (by omega : s.phead + 1 ≤ s.tail + s.capacity)

theorem invC_commitPushNW {α : Type} {s : Fifo α} (h : FifoInvC s)
    (hroom : s.phead - s.pcacheTail < s.capacity) :
    FifoInvC (Pusher.drop s) := by
  obtain ⟨c1, c2, c3, c4, c5, c6, c7, c8, c9, c10⟩ := h
  refine ⟨c1, c2, rfl, c4, c5, ?_, c7, ?_, ?_, ?_⟩
  · exact (by omega : s.phead + 1 ≤ s.pcacheTail + s.capacity)
  · exact (by omega : s.ccacheHead ≤ s.phead + 1)
  · exact (by omega : s.tail ≤ s.phead + 1)
  · exact (by omega : s.phead + 1 ≤ s.tail + s.capacity)

theorem invC_commitPop {α : Type} {s : Fifo α} (h : FifoInvC s)
    (hadv : s.ctail < s.ccacheHead) (slot : Nat) :
    FifoInvC (Popper.drop s slot) := by
  obtain ⟨c1, c2, c3, c4, c5, c6, c7, c8, c9, c10⟩ := h
  refine ⟨c1, ?_, c3, rfl, ?_, ?_, ?_, c8, ?_, ?_⟩
  · simpa [Popper.drop] using c2
  · exact (by omega : s.pcacheTail ≤ s.ctail + 1)
  · exact (by omega : s.head ≤ s.pcacheTail + s.capacity)
  · exact (by omega : s.ctail + 1 ≤ s.ccacheHead)
  · exact (by omega : s.ctail + 1 ≤ s.head)
  · exact (by omega : s.head ≤ s.ctail + 1 + s.capacity)

theorem invC_pushValue {α : Type} {s : Fifo α} (h : FifoInvC s) (v : α) :
    FifoInvC (pushValue s v).1 := by
  by_cases hc1 : s.phead - s.pcacheTail = s.capacity
  · by_cases hc2 : s.phead - s.tail = s.capacity
    · have hres : pushValue s v = ({ s with pcacheTail := s.tail }, Except.error v) := by
        unfold pushValue Producer.push
        rw [if_pos hc1, if_pos hc2]
      rw [hres]
      exact invC_refreshP h
    · have hres : pushValue s v =
          (Pusher.drop (Pusher.write { s with pcacheTail := s.tail }
            (s.phead % s.capacity) v), Except.ok ()) := by
        unfold pushValue Producer.push
        rw [if_pos hc1, if_neg hc2]
      rw [hres]
      have h10 := h.bound
      have h3 := h.hsync
      exact invC_commitPush (invC_refreshP h)
        (by omega : s.phead - s.tail < s.capacity) _ v
  · have hres : pushValue s v =
        (Pusher.drop (Pusher.write s (s.phead % s.capacity) v), Except.ok ()) := by
      unfold pushValue Producer.push
      rw [if_neg hc1]
    rw [hres]
    have h6 := h.pbound
    have h3 := h.hsync
    exact invC_commitPush h (by omega) _ v

theorem invC_pushRelease {α : Type} {s : Fifo α} (h : FifoInvC s) :
    FifoInvC (pushRelease s).1 := by
  by_cases hc1 : s.phead - s.pcacheTail = s.capacity
  · by_cases hc2 : s.phead - s.tail = s.capacity
    · have hres : pushRelease s = ({ s with pcacheTail := s.tail }, Except.error ()) := by
        unfold pushRelease Producer.push
        rw [if_pos hc1, if_pos hc2]
      rw [hres]
      exact invC_refreshP h
    · have hres : pushRelease s =
          (Pusher.drop { s with pcacheTail := s.tail }, Except.ok ()) := by
        unfold pushRelease Producer.push
        rw [if_pos hc1, if_neg hc2]
      rw [hres]
      have h10 := h.bound
      have h3 := h.hsync
      exact invC_commitPushNW (invC_refreshP h)
        (by omega : s.phead - s.tail < s.capacity)
  · have hres : pushRelease s = (Pusher.drop s, Except.ok ()) := by
      unfold pushRelease Producer.push
      rw [if_neg hc1]
    rw [hres]
    have h6 := h.pbound
    have h3 := h.hsync
    exact invC_commitPushNW h (by omega)

theorem invC_popValue {α : Type} {s : Fifo α} (h : FifoInvC s) :
    FifoInvC (popValue s).1 := by
  by_cases hd1 : s.ctail = s.ccacheHead
  · by_cases hd2 : s.ctail = s.head
    · have hres : popValue s = ({ s with ccacheHead := s.head }, PopResult.empty) := by
        unfold popValue Consumer.pop
        rw [if_pos hd1, if_pos hd2]
      rw [hres]
      exact invC_refreshC h
    · have hres : popValue s =
          (Popper.drop { s with ccacheHead := s.head } (s.ctail % s.capacity),
            PopResult.value (({ s with ccacheHead := s.head } : Fifo α).buffer.getD
              (s.ctail % s.capacity) none)) := by
        unfold popValue Consumer.pop
        rw [if_pos hd1, if_neg hd2]
      rw [hres]
      have h9 := h.ht
      have h4 := h.tsync
      exact invC_commitPop (invC_refreshC h) (by omega : s.ctail < s.head) _
  · have hres : popValue s =
        (Popper.drop s (s.ctail % s.capacity),
          PopResult.value (s.buffer.getD (s.ctail % s.capacity) none)) := by
      unfold popValue Consumer.pop
      rw [if_neg hd1]
    rw [hres]
    have h7 := h.cl
    exact invC_commitPop h (by omega) _

theorem invC_reserveP {α : Type} {s : Fifo α} (h : FifoInvC s) :
    FifoInvC (Producer.push s).1 := by
  by_cases hc1 : s.phead - s.pcacheTail = s.capacity
  · by_cases hc2 : s.phead - s.tail = s.capacity
    · have hres : Producer.push s = ({ s with pcacheTail := s.tail }, none) := by
        unfold Producer.push
        rw [if_pos hc1, if_pos hc2]
      rw [hres]
      exact invC_refreshP h
    · have hres : Producer.push s =
          ({ s with pcacheTail := s.tail }, some (s.phead % s.capacity)) := by
        unfold Producer.push
        rw [if_pos hc1, if_neg hc2]
      rw [hres]
      exact invC_refreshP h
  · have hres : Producer.push s = (s, some (s.phead % s.capacity)) := by
      unfold Producer.push
      rw [if_neg hc1]
    rw [hres]
    exact h

theorem invC_reserveC {α : Type} {s : Fifo α} (h : FifoInvC s) :
    FifoInvC (Consumer.pop s).1 := by
  by_cases hd1 : s.ctail = s.ccacheHead
  · by_cases hd2 : s.ctail = s.head
    · have hres : Consumer.pop s = ({ s with ccacheHead := s.head }, none) := by
        unfold Consumer.pop
        rw [if_pos hd1, if_pos hd2]
      rw [hres]
      exact invC_refreshC h
    · have hres : Consumer.pop s =
          ({ s with ccacheHead := s.head }, some (s.ctail % s.capacity)) := by
        unfold Consumer.pop
        rw [if_pos hd1, if_neg hd2]
      rw [hres]
      exact invC_refreshC h
  · have hres : Consumer.pop s = (s, some (s.ctail % s.capacity)) := by
      unfold Consumer.pop
      rw [if_neg hd1]
    rw [hres]
    exact h

/--
States reachable from construction by any sequence of complete pushes,
accessor releases without a write, complete pops, and bare accessor
reservations (`Producer::push` / `Consumer::pop` whose `Pusher`/`Popper` has
not yet been released).
-/
inductive ReachA {α : Type} : Fifo α → Prop where
  | init (c : Nat) (hc : 0 < c) : ReachA (Fifo.new α c)
  | push {s : Fifo α} (v : α) (h : ReachA s) : ReachA (pushValue s v).1
  | pushNoWrite {s : Fifo α} (h : ReachA s) : ReachA (pushRelease s).1
  | pop {s : Fifo α} (h : ReachA s) : ReachA (popValue s).1
  | reserveP {s : Fifo α} (h : ReachA s) : ReachA (Producer.push s).1
  | reserveC {s : Fifo α} (h : ReachA s) : ReachA (Consumer.pop s).1

theorem reachA_invC {α : Type} {s : Fifo α} (h : ReachA s) : FifoInvC s := by
  induction h with
  | init c hc => exact (inv_new c hc).base
  | push v h ih => exact invC_pushValue ih v
  | pushNoWrite h ih => exact invC_pushRelease ih
  | pop h ih => exact invC_popValue ih
  | reserveP h ih => exact invC_reserveP ih
  | reserveC h ih => exact invC_reserveC ih

/-- C3: in every state reachable from construction by pushes, pops and
accessor releases, the head cursor never falls behind the tail cursor and
never runs more than `capacity` ahead of it: `0 ≤ head - tail ≤ capacity`. -/
theorem spsc_cursor_invariant {α : Type} {s : Fifo α} (h : ReachA s) :
    s.tail ≤ s.head ∧ s.head - s.tail ≤ s.capacity := by
  have hc := reachA_invC h
  exact ⟨hc.ht, by have := hc.bound; omega⟩

theorem spsc_cursor_invariant_witness :
    (pushRelease (pushValue (Fifo.new Nat 2) 3).1).1.tail ≤
      (pushRelease (pushValue (Fifo.new Nat 2) 3).1).1.head ∧
    (pushRelease (pushValue (Fifo.new Nat 2) 3).1).1.head -
      (pushRelease (pushValue (Fifo.new Nat 2) 3).1).1.tail ≤
      (pushRelease (pushValue (Fifo.new Nat 2) 3).1).1.capacity :=
  spsc_cursor_invariant (ReachA.pushNoWrite (ReachA.push 3 (ReachA.init 2 (by decide))))

theorem reserve_head_eq {α : Type} (s : Fifo α) : (Producer.push s).1.head = s.head := by
  unfold Producer.push
  by_cases hc1 : s.phead - s.pcacheTail = s.capacity
  · rw [if_pos hc1]
    by_cases hc2 : s.phead - s.tail = s.capacity
    · rw [if_pos hc2]
    · rw [if_neg hc2]
  · rw [if_neg hc1]

theorem reserve_phead_eq {α : Type} (s : Fifo α) : (Producer.push s).1.phead = s.phead := by
  unfold Producer.push
  by_cases hc1 : s.phead - s.pcacheTail = s.capacity
  · rw [if_pos hc1]
    by_cases hc2 : s.phead - s.tail = s.capacity
    · rw [if_pos hc2]
    · rw [if_neg hc2]
  · rw [if_neg hc1]

/-- C4 as stated fails on the code: releasing a `Pusher` without writing
through it still increments the head and release-stores it, so the published
head covers a slot that was never initialized, and the consumer's next pop
observes that uninitialized slot. -/
theorem pusher_release_without_write_publishes_uninit :
    (pushRelease (Fifo.new Nat 1)).1.head = 1 ∧
    (pushRelease (Fifo.new Nat 1)).1.tail = 0 ∧
    (pushRelease (Fifo.new Nat 1)).1.buffer.getD 0 (some 0) = none ∧
    (popValue (pushRelease (Fifo.new Nat 1)).1).2 = PopResult.value none := by
  decide

/-- C4 (amended): the head increment and its release-store happen only at the
accessor's release — the reservation made by `Producer::push` leaves the
published head (and the local head) unchanged, and releasing the accessor
publishes exactly `head + 1`; and provided every accessor is written through
before release (as along any `Trace`), every slot covered by the published
head is fully initialized. -/
theorem pusher_publishes_only_at_release {α : Type} {ps qs : List α} {s : Fifo α}
    (h : Trace ps qs s) (v : α) :
    (Producer.push s).1.head = s.head ∧
    (∀ s1 slot, Producer.push s = (s1, some slot) →
      (Pusher.drop (Pusher.write s1 slot v)).head = s.head + 1) ∧
    (∀ i, i < s.head - s.tail →
      (s.buffer.getD ((s.tail + i) % s.capacity) none).isSome) := by
  obtain ⟨L, hInv, -⟩ := trace_inv h
  refine ⟨reserve_head_eq s, ?_, ?_⟩
  · intro s1 slot he
    have h1 : s1.phead = s.phead := by
      have h2 := reserve_phead_eq s
      rw [he] at h2
      exact h2
    show s1.phead + 1 = s.head + 1
    rw [h1, ← hInv.base.hsync]
  · intro i hi
    have hiL : i < L.length := by rw [hInv.len]; exact hi
    rw [hInv.slots i hiL]
    simp [List.getElem?_eq_getElem hiL]

theorem pusher_publishes_only_at_release_witness :
    (Producer.push (pushValue (Fifo.new Nat 2) 5).1).1.head
      = (pushValue (Fifo.new Nat 2) 5).1.head ∧
    (Pusher.drop (Pusher.write (Producer.push (pushValue (Fifo.new Nat 2) 5).1).1 1 7)).head
      = (pushValue (Fifo.new Nat 2) 5).1.head + 1 ∧
    ((pushValue (Fifo.new Nat 2) 5).1.buffer.getD
      (((pushValue (Fifo.new Nat 2) 5).1.tail + 0) % (pushValue (Fifo.new Nat 2) 5).1.capacity)
      none).isSome := by
  have t1 : Trace ([] ++ [5]) [] (pushValue (Fifo.new Nat 2) 5).1 :=
    Trace.push 5 (Trace.init 2 (by decide)) rfl
  obtain ⟨h1, h2, h3⟩ := pusher_publishes_only_at_release t1 7
  exact ⟨h1, h2 _ 1 rfl, h3 0 (by decide)⟩

/-! ## Unbounded MPMC lock-free queue (`src/lfqueue/lockfreequeue.rs`)

The heap of `Box`-allocated `Node`s is embedded as an arena: a list of nodes
addressed by allocation index, with `Option Nat` standing for the raw `next`
pointer (`none` = null).  `Box::into_raw` appends a fresh node at the end of
the arena; `Box::from_raw` + `drop` makes the cell unreachable from the
head/tail chain (the arena keeps the cell, matching the fact that a freed
address is never dereferenced again by the algorithm).  Each operation is one
iteration of the source's retry loop under the sequential semantics; a result
that the source would answer with `continue` is reported explicitly so that
theorems can show those branches are never taken in reachable states. -/

/-- One `Node<T>`: optional payload and next pointer (`none` = null). -/
structure LNode (α : Type) where
  data : Option α
  next : Option Nat
deriving Repr, DecidableEq

/-- `LockFreeQueue<T>`: arena of allocated nodes plus the head and tail
pointers (arena indices). -/
structure LockFreeQueue (α : Type) where
  heap : List (LNode α)
  head : Nat
  tail : Nat
deriving Repr, DecidableEq

/-- Raw-pointer dereference of a node's `next` field. -/
def nextOf {α : Type} (heap : List (LNode α)) (i : Nat) : Option Nat :=
  (heap.getD i { data := none, next := none }).next

/-- Raw-pointer dereference of a node's `data` field. -/
def dataOf {α : Type} (heap : List (LNode α)) (i : Nat) : Option α :=
  (heap.getD i { data := none, next := none }).data

/-- `LockFreeQueue::new()`: one sentinel node with no payload and null next;
head and tail both point at it. -/
def LockFreeQueue.new (α : Type) : LockFreeQueue α :=
  { heap := [{ data := none, next := none }], head := 0, tail := 0 }

/-- The heap after a successful `push`: the new node is allocated at index
`heap.length` and the CAS links `tail_node.next` from null to it. -/
def linkHeap {α : Type} (heap : List (LNode α)) (t : Nat) (x : α) : List (LNode α) :=
  let heap1 := heap ++ [{ data := some x, next := none }]
  heap1.set t { data := dataOf heap1 t, next := some heap.length }

/--
One iteration of `LockFreeQueue::push`'s loop, after allocating the new node:
load tail and its next pointer; if next is non-null the iteration only helps
(CAS tail forward) and the source retries — reported as `none`; if next is
null, the CAS of `tail_node.next` from null succeeds (sequential execution),
the best-effort CAS of the tail pointer to the new node also succeeds, and
the push completes.
-/
def LockFreeQueue.push {α : Type} (q : LockFreeQueue α) (x : α) : Option (LockFreeQueue α) :=
  match nextOf (q.heap ++ [{ data := some x, next := none }]) q.tail with
  | some _ => none
  | none => some { heap := linkHeap q.heap q.tail x, head := q.head, tail := q.heap.length }

/-- Outcome of one iteration of `LockFreeQueue::pop`'s loop. -/
inductive LPopStep (α : Type) where
  | empty
  | retryHelp
  | retryBare
  | unwrapPanic
  | val (x : α)
deriving Repr, DecidableEq

/--
One iteration of `LockFreeQueue::pop`'s loop: load head, tail and
`head.next`.  `head = tail` with null next answers `empty`; `head = tail`
with non-null next helps (CAS tail forward) and the source retries
(`retryHelp`); `head ≠ tail` with null next is the bare `continue`
(`retryBare`); otherwise `next.data.as_ref().unwrap()` reads the payload
(`unwrapPanic` if it is `None`), the head CAS succeeds (sequential
execution), the old head is freed, and the payload is returned.
-/
def LockFreeQueue.pop {α : Type} (q : LockFreeQueue α) : LockFreeQueue α × LPopStep α :=
  if q.head = q.tail then
    match nextOf q.heap q.head with
    | none => (q, LPopStep.empty)
    | some n => ({ q with tail := n }, LPopStep.retryHelp)
  else
    match nextOf q.heap q.head with
    | none => (q, LPopStep.retryBare)
    | some n =>
      match dataOf q.heap n with
      | none => (q, LPopStep.unwrapPanic)
      | some d => ({ q with head := n }, LPopStep.val d)

/-- A null-terminated chain of nodes linked by `next` pointers. -/
inductive NodeChain {α : Type} (heap : List (LNode α)) : List Nat → Prop where
  | last (n : Nat) (h : nextOf heap n = none) : NodeChain heap [n]
  | cons (m n : Nat) (rest : List Nat) (hl : nextOf heap m = some n)
      (hc : NodeChain heap (n :: rest)) : NodeChain heap (m :: n :: rest)

/--
Well-formedness of a queue state holding the abstract value list `L`: a chain
runs from the head node (the sentinel) to the tail node, its node indices are
strictly increasing (allocation order) and in-bounds, and the payloads of the
nodes after the sentinel are exactly `L`.
-/
def LFQInv {α : Type} (q : LockFreeQueue α) (L : List α) : Prop :=
  ∃ ids : List Nat,
    NodeChain q.heap (q.head :: ids) ∧
    (q.head :: ids).getLast? = some q.tail ∧
    ids.map (dataOf q.heap) = L.map some ∧
    List.Chain' (· < ·) (q.head :: ids) ∧
    ∀ i ∈ q.head :: ids, i < q.heap.length

theorem length_linkHeap {α : Type} (heap : List (LNode α)) (t : Nat) (x : α) :
    (linkHeap heap t x).length = heap.length + 1 := by
  simp [linkHeap]

theorem nextOf_linkHeap_self {α : Type} {heap : List (LNode α)} {t : Nat} (x : α)
    (ht : t < heap.length) :
    nextOf (linkHeap heap t x) t = some heap.length := by
  unfold nextOf linkHeap
  rw [listGetD_set_self]
  simp
  omega

theorem nextOf_linkHeap_other {α : Type} {heap : List (LNode α)} {t i : Nat} (x : α)
    (hne : i ≠ t) (hi : i < heap.length) :
    nextOf (linkHeap heap t x) i = nextOf heap i := by
  unfold nextOf linkHeap
  rw [listGetD_set_other _ _ _ _ _ (Ne.symm hne), listGetD_append_lt _ _ _ _ hi]

theorem nextOf_linkHeap_fresh {α : Type} {heap : List (LNode α)} {t : Nat} (x : α)
    (ht : t < heap.length) :
    nextOf (linkHeap heap t x) heap.length = none := by
  unfold nextOf linkHeap
  rw [listGetD_set_other _ _ _ _ _ (by omega : t ≠ heap.length),
    listGetD_append_len]

theorem dataOf_linkHeap_self {α : Type} {heap : List (LNode α)} {t : Nat} (x : α)
    (ht : t < heap.length) :
    dataOf (linkHeap heap t x) t = dataOf heap t := by
  unfold dataOf linkHeap
  rw [listGetD_set_self]
  · show dataOf (heap ++ [{ data := some x, next := none }]) t = _
    unfold dataOf
    rw [listGetD_append_lt _ _ _ _ ht]
  · simp
    omega

theorem dataOf_linkHeap_other {α : Type} {heap : List (LNode α)} {t i : Nat} (x : α)
    (hne : i ≠ t) (hi : i < heap.length) :
    dataOf (linkHeap heap t x) i = dataOf heap i := by
  unfold dataOf linkHeap
  rw [listGetD_set_other _ _ _ _ _ (Ne.symm hne), listGetD_append_lt _ _ _ _ hi]

theorem dataOf_linkHeap_fresh {α : Type} {heap : List (LNode α)} {t : Nat} (x : α)
    (ht : t < heap.length) :
    dataOf (linkHeap heap t x) heap.length = some x := by
  unfold dataOf linkHeap
  rw [listGetD_set_other _ _ _ _ _ (by omega : t ≠ heap.length),
    listGetD_append_len]

theorem getLastq_mem : ∀ {l : List Nat} {a : Nat}, l.getLast? = some a → a ∈ l
  | [x], a, h => by simp at h; simp [h]
  | x :: y :: l, a, h => by
    rw [List.getLast?_cons_cons] at h
    exact List.mem_cons_of_mem x (getLastq_mem h)

theorem chainLt_le_getLast : ∀ {l : List Nat} {t : Nat},
    List.Chain' (· < ·) l → l.getLast? = some t → ∀ a ∈ l, a ≤ t
  | [x], t, _, hl, a, ha => by
    simp at hl ha
    omega
  | x :: y :: l, t, hc, hl, a, ha => by
    rw [List.getLast?_cons_cons] at hl
    rw [List.chain'_cons] at hc
    rcases List.mem_cons.mp ha with rfl | ha2
    · have hy : y ≤ t := chainLt_le_getLast hc.2 hl y (List.mem_cons_self y l)
      omega
    · exact chainLt_le_getLast hc.2 hl a ha2

theorem chain_last_next_none {α : Type} {heap : List (LNode α)} :
    ∀ {l : List Nat} {t : Nat}, NodeChain heap l → l.getLast? = some t →
      nextOf heap t = none := by
  intro l t hc
  induction hc with
  | last n hn =>
    intro hl
    simp at hl
    exact hl ▸ hn
  | cons m n rest hl hc ih =>
    intro hlast
    rw [List.getLast?_cons_cons] at hlast
    exact ih hlast

theorem nodeChain_linkHeap {α : Type} {heap : List (LNode α)} {x : α} {t : Nat}
    {l : List Nat} (hc : NodeChain heap l) :
    l.getLast? = some t → (∀ i ∈ l, i < heap.length) → List.Chain' (· < ·) l →
    NodeChain (linkHeap heap t x) (l ++ [heap.length]) := by
  induction hc with
  | last n hn =>
    intro hlast hbnd hinc
    have hnt : n = t := by simpa using hlast
    subst hnt
    have hb : n < heap.length := hbnd n (List.mem_cons_self n [])
    exact NodeChain.cons n heap.length [] (nextOf_linkHeap_self x hb)
      (NodeChain.last heap.length (nextOf_linkHeap_fresh x hb))
  | cons m n rest hl hc ih =>
    intro hlast hbnd hinc
    rw [List.getLast?_cons_cons] at hlast
    rw [List.chain'_cons] at hinc
    have hmb : m < heap.length := hbnd m (List.mem_cons_self m (n :: rest))
    have hnt : n ≤ t := chainLt_le_getLast hinc.2 hlast n (List.mem_cons_self n rest)
    have hmt : m ≠ t := by omega
    have hbnd2 : ∀ i ∈ n :: rest, i < heap.length := by
      intro i hi
      exact hbnd i (List.mem_cons_of_mem m hi)
    exact NodeChain.cons m n (rest ++ [heap.length])
      ((nextOf_linkHeap_other x hmt hmb).symm ▸ hl)
      (ih hlast hbnd2 hinc.2)

theorem lfq_new_inv {α : Type} : LFQInv (LockFreeQueue.new α) [] := by
  refine ⟨[], NodeChain.last 0 rfl, rfl, rfl, ?_, ?_⟩
  · simp
  · intro i hi
    simp at hi
    simp [LockFreeQueue.new, hi]

theorem lfq_push_ok {α : Type} {q : LockFreeQueue α} {L : List α} (h : LFQInv q L) (x : α) :
    ∃ q', LockFreeQueue.push q x = some q' ∧ LFQInv q' (L ++ [x]) := by
  obtain ⟨ids, hchain, hlast, hmap, hinc, hbnd⟩ := h
  have htb : q.tail < q.heap.length := hbnd q.tail (getLastq_mem hlast)
  have htnext : nextOf q.heap q.tail = none := chain_last_next_none hchain hlast
  have htnext1 : nextOf (q.heap ++ [{ data := some x, next := none }]) q.tail = none := by
    unfold nextOf at htnext ⊢
    rw [listGetD_append_lt _ _ _ _ htb]
    exact htnext
  refine ⟨{ heap := linkHeap q.heap q.tail x, head := q.head, tail := q.heap.length },
    ?_, ?_⟩
  · unfold LockFreeQueue.push
    rw [htnext1]
  · refine ⟨ids ++ [q.heap.length], ?_, ?_, ?_, ?_, ?_⟩
    · exact nodeChain_linkHeap hchain hlast hbnd hinc
    · show ((q.head :: ids) ++ [q.heap.length]).getLast? = some q.heap.length
      exact List.getLast?_concat _
    · show (ids ++ [q.heap.length]).map (dataOf (linkHeap q.heap q.tail x))
        = (L ++ [x]).map some
      rw [List.map_append]
      have hcongr : ids.map (dataOf (linkHeap q.heap q.tail x)) = ids.map (dataOf q.heap) := by
        apply List.map_congr_left
        intro i hi
        have hib : i < q.heap.length := hbnd i (List.mem_cons_of_mem q.head hi)
        by_cases hit : i = q.tail
        · subst hit
          exact dataOf_linkHeap_self x hib
        · exact dataOf_linkHeap_other x hit hib
      rw [hcongr, hmap]
      simp [dataOf_linkHeap_fresh x htb]
    · show List.Chain' (· < ·) ((q.head :: ids) ++ [q.heap.length])
      rw [List.chain'_append]
      refine ⟨hinc, List.chain'_singleton _, ?_⟩
      intro a ha y hy
      simp at hy
      subst hy
      rw [hlast] at ha
      simp at ha
      subst ha
      exact htb
    · intro i hi
      rw [length_linkHeap]
      have : i ∈ (q.head :: ids) ++ [q.heap.length] := by simpa using hi
      rcases List.mem_append.mp this with h1 | h2
      · have := hbnd i h1
        omega
      · simp at h2
        omega

theorem lfq_pop_empty {α : Type} {q : LockFreeQueue α} (h : LFQInv q []) :
    LockFreeQueue.pop q = (q, LPopStep.empty) := by
  obtain ⟨ids, hchain, hlast, hmap, hinc, hbnd⟩ := h
  have hids : ids = [] := by simpa using hmap
  subst hids
  have hht : q.head = q.tail := by simpa using hlast
  have hnext : nextOf q.heap q.head = none := by
    cases hchain
    assumption
  unfold LockFreeQueue.pop
  rw [if_pos hht, hnext]

theorem lfq_pop_cons {α : Type} {q : LockFreeQueue α} {x : α} {L' : List α}
    (h : LFQInv q (x :: L')) :
    ∃ q', LockFreeQueue.pop q = (q', LPopStep.val x) ∧ LFQInv q' L' ∧
      q'.heap = q.heap ∧ q'.tail = q.tail := by
  obtain ⟨ids, hchain, hlast, hmap, hinc, hbnd⟩ := h
  match ids, hchain, hlast, hmap, hinc, hbnd with
  | [], hchain, hlast, hmap, hinc, hbnd => simp at hmap
  | n :: ids', hchain, hlast, hmap, hinc, hbnd =>
    have hnext : nextOf q.heap q.head = some n := by
      cases hchain
      assumption
    have hdata : dataOf q.heap n = some x := by
      simp at hmap
      exact hmap.1
    have hlast2 : (n :: ids').getLast? = some q.tail := by
      rw [List.getLast?_cons_cons] at hlast
      exact hlast
    have hinc2 : q.head < n ∧ List.Chain' (· < ·) (n :: ids') := by
      rw [List.chain'_cons] at hinc
      exact hinc
    have hnt : n ≤ q.tail := chainLt_le_getLast hinc2.2 hlast2 n (List.mem_cons_self n ids')
    have hht : ¬ q.head = q.tail := by
      have := hinc2.1
      omega
    refine ⟨{ q with head := n }, ?_, ?_, rfl, rfl⟩
    · unfold LockFreeQueue.pop
      rw [if_neg hht]
      simp only [hnext, hdata]
    · refine ⟨ids', ?_, hlast2, ?_, hinc2.2, ?_⟩
      · cases hchain
        assumption
      · simp at hmap
        exact hmap.2
      · intro i hi
        exact hbnd i (List.mem_cons_of_mem q.head hi)

/-- Enqueue a list of values one after the other; `none` if any push fails to
complete in its first loop iteration. -/
def pushList {α : Type} : LockFreeQueue α → List α → Option (LockFreeQueue α)
  | q, [] => some q
  | q, x :: xs =>
    match LockFreeQueue.push q x with
    | some q' => pushList q' xs
    | none => none

/-- Dequeue `n` values; `none` if any pop fails to return a value in its
first loop iteration. -/
def popN {α : Type} : LockFreeQueue α → Nat → Option (List α × LockFreeQueue α)
  | q, 0 => some ([], q)
  | q, n + 1 =>
    match LockFreeQueue.pop q with
    | (q', LPopStep.val x) =>
      match popN q' n with
      | some (l, qf) => some (x :: l, qf)
      | none => none
    | _ => none

theorem pushList_spec {α : Type} : ∀ (xs : List α) {q : LockFreeQueue α} {L : List α},
    LFQInv q L → ∃ q', pushList q xs = some q' ∧ LFQInv q' (L ++ xs)
  | [], q, L, h => ⟨q, rfl, by simpa using h⟩
  | x :: xs, q, L, h => by
    obtain ⟨q1, he1, h1⟩ := lfq_push_ok h x
    obtain ⟨q', he2, h2⟩ := pushList_spec xs h1
    refine ⟨q', ?_, by simpa using h2⟩
    show pushList q (x :: xs) = some q'
    unfold pushList
    rw [he1]
    exact he2

theorem popN_spec {α : Type} : ∀ (L : List α) {q : LockFreeQueue α},
    LFQInv q L → ∃ qf, popN q L.length = some (L, qf) ∧ LFQInv qf []
  | [], q, h => ⟨q, rfl, h⟩
  | x :: L', q, h => by
    obtain ⟨q1, he1, h1, -, -⟩ := lfq_pop_cons h
    obtain ⟨qf, he2, h2⟩ := popN_spec L' h1
    refine ⟨qf, ?_, h2⟩
    show popN q (L'.length + 1) = some (x :: L', qf)
    unfold popN
    simp only [he1, he2]

/-- C2: sequential functional correctness of the unbounded queue: every push
completes (never fails), and after enqueuing `xs` from a fresh queue,
`xs.length` pops return exactly `xs` in order — no loss, no duplication, and
the next pop reports the queue empty. -/
theorem unbounded_sequential_fifo {α : Type} (xs : List α) :
    ∃ q', pushList (LockFreeQueue.new α) xs = some q' ∧
      ∃ qf, popN q' xs.length = some (xs, qf) ∧
        (LockFreeQueue.pop qf).2 = LPopStep.empty := by
  obtain ⟨q', he1, h1⟩ := pushList_spec xs lfq_new_inv
  have h1' : LFQInv q' xs := by simpa using h1
  obtain ⟨qf, he2, h2⟩ := popN_spec xs h1'
  exact ⟨q', he1, qf, he2, by rw [lfq_pop_empty h2]⟩

/-- States of the unbounded queue reachable by sequential pushes and pops. -/
inductive LReach {α : Type} : LockFreeQueue α → Prop where
  | init : LReach (LockFreeQueue.new α)
  | push {q q' : LockFreeQueue α} (x : α) (h : LReach q)
      (he : LockFreeQueue.push q x = some q') : LReach q'
  | pop {q : LockFreeQueue α} (h : LReach q) : LReach (LockFreeQueue.pop q).1

theorem lreach_inv {α : Type} {q : LockFreeQueue α} (h : LReach q) : ∃ L, LFQInv q L := by
  induction h with
  | init => exact ⟨[], lfq_new_inv⟩
  | push x h he ih =>
    obtain ⟨L, hInv⟩ := ih
    obtain ⟨q2, he2, h2⟩ := lfq_push_ok hInv x
    rw [he2] at he
    have : q2 = _ := Option.some.inj he
    exact ⟨L ++ x :: [], this ▸ h2⟩
  | pop h ih =>
    obtain ⟨L, hInv⟩ := ih
    match L, hInv with
    | [], hInv =>
      rw [lfq_pop_empty hInv]
      exact ⟨[], hInv⟩
    | x :: L', hInv =>
      obtain ⟨q2, he2, h2, -, -⟩ := lfq_pop_cons hInv
      rw [he2]
      exact ⟨L', h2⟩

/-- C10: in every state reachable by sequential pushes and pops, the tail
node's next pointer is null and the head node's next pointer is non-null
whenever head differs from tail; hence each retry loop exits on its first
iteration (push always completes, pop never takes the help-retry or the bare
continue branch — and never reaches the `unwrap` panic). -/
theorem lfq_sequential_first_iteration {α : Type} {q : LockFreeQueue α} (h : LReach q) :
    nextOf q.heap q.tail = none ∧
    (q.head ≠ q.tail → nextOf q.heap q.head ≠ none) ∧
    (∀ x : α, (LockFreeQueue.push q x).isSome) ∧
    (LockFreeQueue.pop q).2 ≠ LPopStep.retryHelp ∧
    (LockFreeQueue.pop q).2 ≠ LPopStep.retryBare ∧
    (LockFreeQueue.pop q).2 ≠ LPopStep.unwrapPanic := by
  obtain ⟨L, hInv⟩ := lreach_inv h
  have hpush : ∀ x : α, (LockFreeQueue.push q x).isSome := by
    intro x
    obtain ⟨q2, he2, -⟩ := lfq_push_ok hInv x
    rw [he2]
    rfl
  obtain ⟨ids, hchain, hlast, hmap, hinc, hbnd⟩ := hInv
  have htnext : nextOf q.heap q.tail = none :=
    chain_last_next_none hchain hlast
  have hheadnext : q.head ≠ q.tail → nextOf q.heap q.head ≠ none := by
    intro hne
    match ids, hchain, hlast with
    | [], hchain, hlast => exact absurd (by simpa using hlast) hne
    | n :: ids', hchain, hlast =>
      have : nextOf q.heap q.head = some n := by
        cases hchain
        assumption
      rw [this]
      simp
  have hInv2 : LFQInv q L := ⟨ids, hchain, hlast, hmap, hinc, hbnd⟩
  refine ⟨htnext, hheadnext, hpush, ?_, ?_, ?_⟩ <;>
    match L, hInv2 with
    | [], hInv2 =>
      rw [lfq_pop_empty hInv2]
      simp
    | x :: L', hInv2 =>
      obtain ⟨q2, he2, -, -, -⟩ := lfq_pop_cons hInv2
      rw [he2]
      simp

theorem lfq_sequential_first_iteration_witness :
    nextOf ((LockFreeQueue.push (LockFreeQueue.new Nat) 3).getD (LockFreeQueue.new Nat)).heap
      ((LockFreeQueue.push (LockFreeQueue.new Nat) 3).getD (LockFreeQueue.new Nat)).tail
      = none ∧
    nextOf ((LockFreeQueue.push (LockFreeQueue.new Nat) 3).getD (LockFreeQueue.new Nat)).heap
      ((LockFreeQueue.push (LockFreeQueue.new Nat) 3).getD (LockFreeQueue.new Nat)).head
      ≠ none ∧
    (LockFreeQueue.push
      ((LockFreeQueue.push (LockFreeQueue.new Nat) 3).getD (LockFreeQueue.new Nat)) 4).isSome ∧
    (LockFreeQueue.pop
      ((LockFreeQueue.push (LockFreeQueue.new Nat) 3).getD (LockFreeQueue.new Nat))).2
      ≠ LPopStep.retryHelp ∧
    (LockFreeQueue.pop
      ((LockFreeQueue.push (LockFreeQueue.new Nat) 3).getD (LockFreeQueue.new Nat))).2
      ≠ LPopStep.retryBare ∧
    (LockFreeQueue.pop
      ((LockFreeQueue.push (LockFreeQueue.new Nat) 3).getD (LockFreeQueue.new Nat))).2
      ≠ LPopStep.unwrapPanic := by
  have hr : LReach ((LockFreeQueue.push (LockFreeQueue.new Nat) 3).getD
      (LockFreeQueue.new Nat)) :=
    LReach.push 3 LReach.init rfl
  obtain ⟨h1, h2, h3, h4, h5, h6⟩ := lfq_sequential_first_iteration hr
  exact ⟨h1, h2 (by decide), h3 4, h4, h5, h6⟩

/-! ## API receiver shapes (`src/lfqueue/lockfreequeue.rs` signatures)

The Rust receiver modes of the two queue operations, embedded as data so the
access discipline the signatures impose can be stated: `&mut self` demands
exclusive access (one caller at a time, enforced by the borrow checker),
`&self` would permit shared concurrent callers. -/

inductive RustReceiver where
  | sharedRef
  | exclusiveRef
deriving Repr, DecidableEq

/-- Receiver of `pub fn push(&mut self, data: T)`. -/
def LockFreeQueue.pushReceiver : RustReceiver := RustReceiver.exclusiveRef

/-- Receiver of `pub fn pop(&mut self) -> Option<T>`. -/
def LockFreeQueue.popReceiver : RustReceiver := RustReceiver.exclusiveRef

/-- C8 as stated fails on the code: both `push` and `pop` take `&mut self`,
so they cannot be invoked concurrently from multiple threads through shared
references to one queue — the borrow checker requires exclusive access (an
external lock or unsafe code) for every call. -/
theorem lfq_not_invocable_through_shared_refs :
    LockFreeQueue.pushReceiver ≠ RustReceiver.sharedRef ∧
    LockFreeQueue.popReceiver ≠ RustReceiver.sharedRef := by
  decide

/-- C8 (amended): the queue's operations are coordinated by CAS loops with no
locks and no blocking, but their receivers are exclusive (`&mut self`):
concurrent invocation through shared references to one queue is not part of
the API; callers would need external synchronization or unsafe wrappers. -/
theorem lfq_receivers_exclusive :
    LockFreeQueue.pushReceiver = RustReceiver.exclusiveRef ∧
    LockFreeQueue.popReceiver = RustReceiver.exclusiveRef :=
  ⟨rfl, rfl⟩

/-! ## One-shot channel (`src/one_shot_ch.rs`) -/

/-- State of `Channel<T>`: the `MaybeUninit` message cell (`none` =
uninitialized) and the atomic `ready` flag. -/
structure Channel (α : Type) where
  message : Option α
  ready : Bool
deriving Repr, DecidableEq

/-- `Channel::new()`. -/
def Channel.new (α : Type) : Channel α :=
  { message := none, ready := false }

/-- `Sender::send`: writes the message cell, then release-stores `ready :=
true`.  The body contains no panic and no check of the previous state. -/
def Sender.send {α : Type} (_c : Channel α) (v : α) : Channel α :=
  { message := some v, ready := true }

/-- `Sender::send` embedded into abort-aware semantics (`Except.error ()`
would represent a panic): since the source body of `send` is panic-free,
every call returns `Except.ok`. -/
def Sender.sendChecked {α : Type} (c : Channel α) (v : α) : Except Unit (Channel α) :=
  Except.ok (Sender.send c v)

/-- `Receiver::receive`: `ready.swap(false)`; if the flag was `false`, panic
(`Except.error ()`); otherwise read the message out of the cell. -/
def Receiver.receive {α : Type} (c : Channel α) : Except Unit (Channel α × Option α) :=
  if c.ready then Except.ok ({ c with ready := false }, c.message)
  else Except.error ()

/-- C9 as stated fails on the code for the double-send half: sending on an
already-sent channel performs no runtime check and does not abort — the
second send completes normally, overwriting the message.  (Double send is
instead prevented statically: `send` takes `self` by value.) -/
theorem double_send_does_not_abort :
    Sender.sendChecked (Sender.send (Channel.new Nat) 1) 2
      = Except.ok { message := some 2, ready := true } ∧
    Sender.sendChecked (Sender.send (Channel.new Nat) 1) 2 ≠ Except.error () := by
  constructor
  · rfl
  · intro h
    exact Except.noConfusion h

/-- C9 (amended): calling `receive` before a value is ready (the `ready` flag
is `false`) is signaled by an unrecoverable abort (panic), not a recoverable
result; double send is prevented statically by `send` consuming the sender
and performs no runtime check. -/
theorem receive_unready_aborts {α : Type} (c : Channel α) (h : c.ready = false) :
    Receiver.receive c = Except.error () := by
  unfold Receiver.receive
  rw [h]
  rfl

theorem receive_unready_aborts_witness :
    (Channel.new Nat).ready = false ∧
    Receiver.receive (Channel.new Nat) = Except.error () :=
  ⟨rfl, receive_unready_aborts (Channel.new Nat) rfl⟩
